import Mathlib

/-
Verification of the deliberation orchestrator and streaming-protocol layer
of the jcp repository (Go), via a shallow embedding in Lean 4.

Embedded source files:
  internal/adk/anthropic/types.go  — Anthropic adapter: message conversion,
    role merging, and the SSE stream aggregator (processStream and friends).
  internal/meeting service (Go package `meeting`) — the smart-meeting
    orchestrator RunSmartMeetingWithCallback, the parallel panel runner
    runAgentsParallel, and the per-agent event drain runSingleAgentWithHistory.

Modelling conventions:
  * Go strings are Lean `String`s; Go slices are Lean `List`s.
  * Go `map[int]*toolCallBuilder` is an association list updated in place;
    Go map iteration order is unspecified, the association list iterates in
    insertion order (none of the verified properties depend on map order).
  * `encoding/json` object decoding is abstracted as an explicit
    `decode : String → Option ArgsMap` parameter (it is Go library code,
    not repository code); everything else is translated from the source.
  * The SSE line framing (`event: `/`data: ` prefixes, JSON unmarshalling of
    the data payload) is abstracted: a stream is a list of already-framed
    events, with a `malformed` constructor standing for a data line whose
    JSON failed to unmarshal (every handler returns without effect there).
  * Go contexts/deadlines are modelled environmentally: each fallible step's
    outcome (`Except GoErr α`) and the step index at which the meeting
    deadline is first observed expired are inputs of the model.
-/

/-! ### String helpers -/

/-- Concatenation of a list of strings (right fold, for easy induction). -/
def concatS : List String → String
  | [] => ""
  | s :: rest => s ++ concatS rest

theorem concatS_append (a b : List String) :
    concatS (a ++ b) = concatS a ++ concatS b := by
  induction a with
  | nil => simp [concatS]
  | cons x xs ih => simp [concatS, ih, String.append_assoc]

theorem string_append_eq_empty_iff (a b : String) :
    a ++ b = "" ↔ a = "" ∧ b = "" := by
  constructor
  · intro h
    have hd := congrArg String.data h
    simp [String.data_append] at hd
    exact ⟨String.ext (by simp [hd.1]), String.ext (by simp [hd.2])⟩
  · rintro ⟨rfl, rfl⟩; rfl

/-! ### Anthropic adapter: data types (internal/adk/anthropic/types.go) -/

namespace Anthropic

/-- Decoded JSON object, abstracting Go `map[string]any` (field ↦ value). -/
abbrev ArgsMap := List (String × String)

/-- genai.FunctionCall (the fields used by the adapter). -/
structure FunctionCall where
  id : String
  name : String
  args : ArgsMap
deriving DecidableEq

/-- genai.Part (the fields used by the adapter): visible/thinking text or a
function call. -/
structure Part where
  text : String
  thought : Bool
  functionCall : Option FunctionCall
deriving DecidableEq

/-- genai FinishReason values produced by convertStopReason. -/
inductive FinishReason where
  | unspecified
  | stop
  | maxTokens
deriving DecidableEq

/-- model.LLMResponse (the fields used by the aggregator). Go field
`Partial` is named `isIncremental` here. -/
structure LLMResponse where
  parts : List Part
  isIncremental : Bool
  turnComplete : Bool
  finishReason : FinishReason
deriving DecidableEq

/-- toolCallBuilder — aggregates one streaming tool call. -/
structure ToolCallBuilder where
  id : String
  name : String
  args : String
deriving DecidableEq

/-- DeltaBlock — incremental content of a content_block_delta event.
Go field `PartialJSON` is named `fragmentJSON` here. -/
structure DeltaBlock where
  type_ : String
  text : String
  fragmentJSON : String
  thinking : String
deriving DecidableEq

/-- One framed SSE event, standing for a (event-type line, data line) pair
after JSON unmarshalling; `malformed` is a data line whose JSON failed to
unmarshal (each Go handler returns without effect on unmarshal failure). -/
inductive SSEEvent where
  | messageStart (inputTokens : Option Int)
  | contentBlockStart (index : Int) (blockType : String) (id : String) (name : String)
  | contentBlockDelta (index : Int) (delta : DeltaBlock)
  | contentBlockStop (index : Int)
  | messageDelta (stopReason : String) (outputTokens : Option Int)
  | errorEvent (errType : String) (errMsg : String)
  | ping
  | messageStop
  | malformed
deriving DecidableEq

/-- Usage metadata accumulated during the stream (prompt and candidate
token counts; genai.GenerateContentResponseUsageMetadata). -/
structure UsageMeta where
  promptTokenCount : Int
  candidatesTokenCount : Int
  totalTokenCount : Int
deriving DecidableEq

/-- The aggregation state of processStream: running text buffer, running
thinking buffer, tool-call builders keyed by block index, block types,
usage, finish reason, plus the incremental responses yielded so far. -/
structure StreamState where
  textContent : String
  thinkingContent : String
  toolCallsMap : List (Int × ToolCallBuilder)
  blockTypes : List (Int × String)
  usageMetadata : Option UsageMeta
  finishReason : FinishReason
  increments : List LLMResponse
deriving DecidableEq

/-- Association-list lookup (Go map read `m[k]`). -/
def assocLookup {α : Type} (l : List (Int × α)) (k : Int) : Option α :=
  match l with
  | [] => none
  | (k', v) :: rest => if k' = k then some v else assocLookup rest k

/-- Association-list write (Go map write `m[k] = v`): replace the existing
entry or append a new one. -/
def assocSet {α : Type} (l : List (Int × α)) (k : Int) (v : α) : List (Int × α) :=
  match l with
  | [] => [(k, v)]
  | (k', v') :: rest => if k' = k then (k, v) :: rest else (k', v') :: assocSet rest k v

/-- convertStopReason — maps Anthropic stop_reason to genai FinishReason. -/
def convertStopReason (reason : String) : FinishReason :=
  if reason = "end_turn" then .stop
  else if reason = "max_tokens" then .maxTokens
  else if reason = "stop_sequence" then .stop
  else if reason = "tool_use" then .stop
  else .unspecified

/-- parseInputArgs input values: Go `any` as it occurs at the call sites
(nil, a JSON string, an already-decoded object, or any other value whose
`json.Marshal` result — if it succeeds — is carried as a string). -/
inductive InputVal where
  | nullVal
  | strVal (s : String)
  | mapVal (m : ArgsMap)
  | otherVal (marshalled : Option String)
deriving DecidableEq

/-- parseInputArgs — parses a tool call's input; a decode failure yields an
empty object. `decode` abstracts `json.Unmarshal` into `map[string]any`. -/
def parseInputArgs (decode : String → Option ArgsMap) : InputVal → ArgsMap
  | .nullVal => []
  | .mapVal m => m
  | .strVal s =>
    match decode s with
    | some m => m
    | none => []
  | .otherVal none => []
  | .otherVal (some data) =>
    match decode data with
    | some m => m
    | none => []

/-- handleMessageStart — records the prompt token count. -/
def handleMessageStart (inputTokens : Option Int) (st : StreamState) : StreamState :=
  match inputTokens with
  | some n => { st with usageMetadata := some ⟨n, 0, 0⟩ }
  | none => st

/-- handleContentBlockStart — records the block type and, for tool_use
blocks, registers a fresh tool-call builder at the block index. -/
def handleContentBlockStart (index : Int) (blockType : String) (id : String)
    (name : String) (st : StreamState) : StreamState :=
  let st := { st with blockTypes := assocSet st.blockTypes index blockType }
  if blockType = "tool_use" then
    { st with toolCallsMap := assocSet st.toolCallsMap index ⟨id, name, ""⟩ }
  else st

/-- handleContentBlockDelta — text deltas extend the text buffer and yield
an incremental response carrying only the new fragment; thinking deltas
extend the thinking buffer; input_json_delta fragments are appended to the
builder registered at the block index (dropped when none is registered). -/
def handleContentBlockDelta (index : Int) (delta : DeltaBlock)
    (st : StreamState) : StreamState :=
  if delta.type_ = "text_delta" then
    { st with
      textContent := st.textContent ++ delta.text
      increments := st.increments ++
        [{ parts := [⟨delta.text, false, none⟩], isIncremental := true,
           turnComplete := false, finishReason := .unspecified }] }
  else if delta.type_ = "thinking_delta" then
    { st with thinkingContent := st.thinkingContent ++ delta.thinking }
  else if delta.type_ = "input_json_delta" then
    match assocLookup st.toolCallsMap index with
    | some b =>
      { st with toolCallsMap :=
          assocSet st.toolCallsMap index { b with args := b.args ++ delta.fragmentJSON } }
    | none => st
  else st

/-- handleMessageDelta — a non-empty stop_reason overwrites the finish
reason; output tokens update the usage when prompt usage was seen. -/
def handleMessageDelta (stopReason : String) (outputTokens : Option Int)
    (st : StreamState) : StreamState :=
  let st :=
    if stopReason ≠ "" then { st with finishReason := convertStopReason stopReason }
    else st
  match outputTokens, st.usageMetadata with
  | some n, some u =>
    { st with usageMetadata := some ⟨u.promptTokenCount, n, u.promptTokenCount + n⟩ }
  | _, _ => st

/-- One step of the processStream event loop (the switch on the event
type); the error event is handled by the loop itself. -/
def stepEvent (st : StreamState) : SSEEvent → StreamState
  | .messageStart inputTokens => handleMessageStart inputTokens st
  | .contentBlockStart index blockType id name =>
    handleContentBlockStart index blockType id name st
  | .contentBlockDelta index delta => handleContentBlockDelta index delta st
  | .messageDelta stopReason outputTokens => handleMessageDelta stopReason outputTokens st
  | .contentBlockStop _ => st
  | .ping => st
  | .messageStop => st
  | .malformed => st
  | .errorEvent _ _ => st

/-- The genai.Part built from one assembled tool-call builder at the end of
processStream. -/
def toolPart (decode : String → Option ArgsMap) (p : Int × ToolCallBuilder) : Part :=
  ⟨"", false, some ⟨p.2.id, p.2.name, parseInputArgs decode (.strVal p.2.args)⟩⟩

/-- Final aggregated response assembly at the end of processStream:
thinking part (if any), then visible text part (if any), then one part per
assembled tool-call builder. -/
def finalizeStream (decode : String → Option ArgsMap) (st : StreamState) : LLMResponse :=
  let parts :=
    (if st.thinkingContent ≠ "" then [(⟨st.thinkingContent, true, none⟩ : Part)] else [])
    ++ (if st.textContent ≠ "" then [(⟨st.textContent, false, none⟩ : Part)] else [])
    ++ st.toolCallsMap.map (toolPart decode)
  { parts := parts
    isIncremental := false
    turnComplete := true
    finishReason := if st.finishReason = .unspecified then .stop else st.finishReason }

/-- The initial aggregation state. -/
def initialStreamState : StreamState :=
  { textContent := "", thinkingContent := "", toolCallsMap := [], blockTypes := [],
    usageMetadata := none, finishReason := .unspecified, increments := [] }

/-- The processStream event loop: an error event terminates the stream
(yielding an error instead of a final response, modelled as `none`);
otherwise the final aggregated response is emitted after the last event. -/
def goStream (decode : String → Option ArgsMap) (st : StreamState) :
    List SSEEvent → List LLMResponse × Option LLMResponse
  | [] => (st.increments, some (finalizeStream decode st))
  | .errorEvent _ _ :: _ => (st.increments, none)
  | e :: rest => goStream decode (stepEvent st e) rest

/-- processStream — aggregates an SSE event stream into the incremental
responses yielded along the way and (absent an error event) one final
aggregated response. -/
def processStream (decode : String → Option ArgsMap) (events : List SSEEvent) :
    List LLMResponse × Option LLMResponse :=
  goStream decode initialStreamState events

/-- The visible (non-thinking) text of a response: concatenation of the
texts of its non-thought parts. -/
def visibleText (r : LLMResponse) : String :=
  concatS (r.parts.map (fun p => if p.thought then "" else p.text))

end Anthropic

/-! ### C1: stream aggregation completeness -/

namespace Anthropic

theorem stepEvent_textInv (st : StreamState) (e : SSEEvent)
    (h : concatS (st.increments.map visibleText) = st.textContent) :
    concatS ((stepEvent st e).increments.map visibleText) = (stepEvent st e).textContent := by
  cases e with
  | messageStart inputTokens =>
    cases inputTokens <;> simp [stepEvent, handleMessageStart, h]
  | contentBlockStart index blockType id name =>
    by_cases hb : blockType = "tool_use" <;>
      simp [stepEvent, handleContentBlockStart, hb, h]
  | contentBlockDelta index delta =>
    by_cases h1 : delta.type_ = "text_delta"
    · simp [stepEvent, handleContentBlockDelta, h1, concatS_append, h, visibleText,
        concatS, String.append_assoc]
    · by_cases h2 : delta.type_ = "thinking_delta"
      · simp [stepEvent, handleContentBlockDelta, h1, h2, h]
      · by_cases h3 : delta.type_ = "input_json_delta"
        · simp only [stepEvent, handleContentBlockDelta, h1, h2, h3, if_false, if_true,
            ite_false, ite_true]
          cases assocLookup st.toolCallsMap index <;> simp [h]
        · simp [stepEvent, handleContentBlockDelta, h1, h2, h3, h]
  | contentBlockStop index => simpa [stepEvent] using h
  | messageDelta stopReason outputTokens =>
    simp only [stepEvent, handleMessageDelta]
    split <;> split_ifs <;> simp_all
  | errorEvent errType errMsg => simpa [stepEvent] using h
  | ping => simpa [stepEvent] using h
  | messageStop => simpa [stepEvent] using h
  | malformed => simpa [stepEvent] using h

theorem concatS_map_empty {α : Type} (f : α → String) (l : List α)
    (h : ∀ x ∈ l, f x = "") : concatS (l.map f) = "" := by
  induction l with
  | nil => rfl
  | cons x xs ih =>
    simp only [List.map_cons, concatS, h x (by simp),
      ih (fun y hy => h y (by simp [hy])), String.empty_append]

theorem visibleText_finalizeStream (decode : String → Option ArgsMap) (st : StreamState) :
    visibleText (finalizeStream decode st) = st.textContent := by
  unfold finalizeStream visibleText
  simp only [List.map_append, concatS_append]
  rw [concatS_map_empty _ (st.toolCallsMap.map _)
    (by intro x hx; simp at hx; obtain ⟨a, b, hmem, hx⟩ := hx; rw [← hx]; simp [toolPart])]
  by_cases ht : st.thinkingContent = "" <;> by_cases hx : st.textContent = "" <;>
    simp [ht, hx, concatS, String.append_empty, String.empty_append]

theorem goStream_text (decode : String → Option ArgsMap) (events : List SSEEvent) :
    ∀ st incs fin,
    concatS (st.increments.map visibleText) = st.textContent →
    goStream decode st events = (incs, some fin) →
    concatS (incs.map visibleText) = visibleText fin := by
  induction events with
  | nil =>
    intro st incs fin hinv h
    simp only [goStream, Prod.mk.injEq, Option.some.injEq] at h
    rw [← h.1, ← h.2, hinv, visibleText_finalizeStream]
  | cons e rest ih =>
    intro st incs fin hinv h
    cases e with
    | errorEvent errType errMsg => simp [goStream] at h
    | messageStart inputTokens =>
      exact ih _ _ _ (stepEvent_textInv st _ hinv) h
    | contentBlockStart index blockType id name =>
      exact ih _ _ _ (stepEvent_textInv st _ hinv) h
    | contentBlockDelta index delta =>
      exact ih _ _ _ (stepEvent_textInv st _ hinv) h
    | contentBlockStop index =>
      exact ih _ _ _ (stepEvent_textInv st _ hinv) h
    | messageDelta stopReason outputTokens =>
      exact ih _ _ _ (stepEvent_textInv st _ hinv) h
    | ping => exact ih _ _ _ (stepEvent_textInv st _ hinv) h
    | messageStop => exact ih _ _ _ (stepEvent_textInv st _ hinv) h
    | malformed => exact ih _ _ _ (stepEvent_textInv st _ hinv) h

end Anthropic

/-- C1: for every streaming call processed by processStream, the
concatenation, in emission order, of the text fragments carried by the
incremental (Go: Partial) responses it yields equals the visible
(non-thinking) text of the single final response it yields at stream end —
no fragment lost, none duplicated. -/
theorem C1_stream_aggregation_completeness
    (decode : String → Option Anthropic.ArgsMap) (events : List Anthropic.SSEEvent)
    (incs : List Anthropic.LLMResponse) (fin : Anthropic.LLMResponse)
    (h : Anthropic.processStream decode events = (incs, some fin)) :
    concatS (incs.map Anthropic.visibleText) = Anthropic.visibleText fin :=
  Anthropic.goStream_text decode events Anthropic.initialStreamState incs fin rfl h

namespace Anthropic

/-- A trivially failing JSON decoder used by concrete streams that carry no
tool calls. -/
def c1dec : String → Option ArgsMap := fun _ => none

/-- A concrete two-fragment text stream. -/
def c1events : List SSEEvent :=
  [ .messageStart (some 10),
    .contentBlockStart 0 "text" "" "",
    .contentBlockDelta 0 ⟨"text_delta", "Hello ", "", ""⟩,
    .contentBlockDelta 0 ⟨"text_delta", "world", "", ""⟩,
    .contentBlockStop 0,
    .messageDelta "end_turn" (some 5),
    .messageStop ]

/-- The incremental responses yielded for `c1events`. -/
def c1incs : List LLMResponse :=
  [ ⟨[⟨"Hello ", false, none⟩], true, false, .unspecified⟩,
    ⟨[⟨"world", false, none⟩], true, false, .unspecified⟩ ]

/-- The final aggregated response for `c1events`. -/
def c1fin : LLMResponse := ⟨[⟨"Hello world", false, none⟩], false, true, .stop⟩

end Anthropic

/-- Witness for C1: a concrete stream whose two yielded fragments
concatenate to the final response's visible text. -/
theorem C1_stream_aggregation_completeness_witness :
    Anthropic.processStream Anthropic.c1dec Anthropic.c1events =
      (Anthropic.c1incs, some Anthropic.c1fin) ∧
    concatS (Anthropic.c1incs.map Anthropic.visibleText) = Anthropic.visibleText Anthropic.c1fin :=
  ⟨by decide, C1_stream_aggregation_completeness Anthropic.c1dec Anthropic.c1events
    Anthropic.c1incs Anthropic.c1fin (by decide)⟩

/-! ### C10: final response shape -/

namespace Anthropic

/-- Classification of a genai.Part for the shape property. -/
inductive PartKind where
  | thinkingKind
  | visibleKind
  | toolKind
deriving DecidableEq

/-- Kind of a part: a function-call part, a thinking part, or visible text. -/
def kindOf (p : Part) : PartKind :=
  if p.functionCall.isSome then .toolKind
  else if p.thought then .thinkingKind
  else .visibleKind

/-- True when the list consists only of tool-call parts. -/
def toolsOnly : List PartKind → Bool
  | [] => true
  | .toolKind :: rest => toolsOnly rest
  | .thinkingKind :: _ => false
  | .visibleKind :: _ => false

/-- True for an optional visible part followed by tool-call parts only. -/
def visibleThenTools : List PartKind → Bool
  | [] => true
  | .visibleKind :: rest => toolsOnly rest
  | .thinkingKind :: _ => false
  | .toolKind :: rest => toolsOnly rest

/-- True for the normalized shape: optional thinking part, then optional
visible part, then tool-call parts only. -/
def normalShape : List PartKind → Bool
  | [] => true
  | .thinkingKind :: rest => visibleThenTools rest
  | .visibleKind :: rest => toolsOnly rest
  | .toolKind :: rest => toolsOnly rest

theorem toolsOnly_toolParts (decode : String → Option ArgsMap)
    (l : List (Int × ToolCallBuilder)) :
    toolsOnly (l.map (kindOf ∘ toolPart decode)) = true := by
  induction l with
  | nil => rfl
  | cons x xs ih => simpa [kindOf, toolPart, toolsOnly, Function.comp] using ih

theorem normalShape_of_toolsOnly (l : List PartKind) (h : toolsOnly l = true) :
    normalShape l = true := by
  cases l with
  | nil => rfl
  | cons k rest => cases k <;> simp_all [toolsOnly, normalShape]

theorem visibleThenTools_of_toolsOnly (l : List PartKind) (h : toolsOnly l = true) :
    visibleThenTools l = true := by
  cases l with
  | nil => rfl
  | cons k rest => cases k <;> simp_all [toolsOnly, visibleThenTools]

theorem normalShape_finalizeStream (decode : String → Option ArgsMap) (st : StreamState) :
    normalShape ((finalizeStream decode st).parts.map kindOf) = true := by
  have htool := toolsOnly_toolParts decode st.toolCallsMap
  unfold finalizeStream
  by_cases ht : st.thinkingContent = "" <;> by_cases hx : st.textContent = ""
  · simp only [ht, hx, ne_eq, not_true_eq_false, ite_false, List.nil_append, List.map_map]
    exact normalShape_of_toolsOnly _ htool
  · simp only [ht, hx, ne_eq, not_true_eq_false, not_false_eq_true, ite_false, ite_true,
      List.nil_append, List.singleton_append, List.map_cons, List.map_map]
    simpa [kindOf, normalShape] using htool
  · simp only [ht, hx, ne_eq, not_true_eq_false, not_false_eq_true, ite_false, ite_true,
      List.nil_append, List.append_nil, List.singleton_append, List.map_cons, List.map_map]
    simpa [kindOf, normalShape] using visibleThenTools_of_toolsOnly _ htool
  · simp only [ht, hx, ne_eq, not_false_eq_true, ite_true, List.singleton_append,
      List.cons_append, List.map_cons, List.map_map]
    simpa [kindOf, normalShape, visibleThenTools] using htool

theorem goStream_fin_shape (decode : String → Option ArgsMap) (events : List SSEEvent) :
    ∀ st incs fin, goStream decode st events = (incs, some fin) →
    ∃ st', fin = finalizeStream decode st' := by
  induction events with
  | nil =>
    intro st incs fin h
    simp only [goStream, Prod.mk.injEq, Option.some.injEq] at h
    exact ⟨st, h.2.symm⟩
  | cons e rest ih =>
    intro st incs fin h
    cases e with
    | errorEvent errType errMsg => simp [goStream] at h
    | messageStart inputTokens => exact ih _ _ _ h
    | contentBlockStart index blockType id name => exact ih _ _ _ h
    | contentBlockDelta index delta => exact ih _ _ _ h
    | contentBlockStop index => exact ih _ _ _ h
    | messageDelta stopReason outputTokens => exact ih _ _ _ h
    | ping => exact ih _ _ _ h
    | messageStop => exact ih _ _ _ h
    | malformed => exact ih _ _ _ h

end Anthropic

/-- C10: for every streaming call, the final aggregated response's content
is normalized rather than stream-ordered: at most one thinking part, at
most one visible-text part, in the fixed order thinking (if any), visible
text (if any), then all assembled tool-call parts, regardless of the order
in which the content blocks arrived. -/
theorem C10_final_response_normalized
    (decode : String → Option Anthropic.ArgsMap) (events : List Anthropic.SSEEvent)
    (incs : List Anthropic.LLMResponse) (fin : Anthropic.LLMResponse)
    (h : Anthropic.processStream decode events = (incs, some fin)) :
    Anthropic.normalShape (fin.parts.map Anthropic.kindOf) = true := by
  obtain ⟨st, rfl⟩ :=
    Anthropic.goStream_fin_shape decode events Anthropic.initialStreamState incs fin h
  exact Anthropic.normalShape_finalizeStream decode st

namespace Anthropic

/-- A concrete stream in which the visible text arrives before the tool
block and the thinking delta arrives last. -/
def c10events : List SSEEvent :=
  [ .contentBlockStart 0 "text" "" "",
    .contentBlockDelta 0 ⟨"text_delta", "Answer", "", ""⟩,
    .contentBlockStart 1 "tool_use" "toolu_9" "get_kline_data",
    .contentBlockDelta 1 ⟨"input_json_delta", "", "bad json", ""⟩,
    .contentBlockDelta 2 ⟨"thinking_delta", "", "", "hmm"⟩,
    .messageDelta "tool_use" none ]

/-- The incremental responses yielded for `c10events`. -/
def c10incs : List LLMResponse := [⟨[⟨"Answer", false, none⟩], true, false, .unspecified⟩]

/-- The final aggregated response for `c10events`: thinking, then visible
text, then the tool call (whose unparsable args became the empty object). -/
def c10fin : LLMResponse :=
  ⟨[⟨"hmm", true, none⟩, ⟨"Answer", false, none⟩,
    ⟨"", false, some ⟨"toolu_9", "get_kline_data", []⟩⟩], false, true, .stop⟩

end Anthropic

/-- Witness for C10: a stream with text-before-thinking arrival order still
produces a final response in normalized thinking-text-tools order. -/
theorem C10_final_response_normalized_witness :
    Anthropic.processStream Anthropic.c1dec Anthropic.c10events =
      (Anthropic.c10incs, some Anthropic.c10fin) ∧
    Anthropic.normalShape (Anthropic.c10fin.parts.map Anthropic.kindOf) = true :=
  ⟨by decide, C10_final_response_normalized Anthropic.c1dec Anthropic.c10events
    Anthropic.c10incs Anthropic.c10fin (by decide)⟩

/-! ### C2: tool-call argument fragment reconstruction -/

namespace Anthropic

theorem assocLookup_assocSet_eq {α : Type} (l : List (Int × α)) (k : Int) (v : α) :
    assocLookup (assocSet l k v) k = some v := by
  induction l with
  | nil => simp [assocSet, assocLookup]
  | cons x xs ih =>
    obtain ⟨k', v'⟩ := x
    by_cases h : k' = k <;> simp [assocSet, assocLookup, h, ih]

theorem assocLookup_assocSet_ne {α : Type} (l : List (Int × α)) (k k' : Int) (v : α)
    (h : k' ≠ k) : assocLookup (assocSet l k' v) k = assocLookup l k := by
  induction l with
  | nil => simp [assocSet, assocLookup, h]
  | cons x xs ih =>
    obtain ⟨k'', v''⟩ := x
    by_cases h2 : k'' = k' <;> simp [assocSet, assocLookup, h, h2, ih]

theorem assocLookup_mem {α : Type} (l : List (Int × α)) (k : Int) (v : α)
    (h : assocLookup l k = some v) : (k, v) ∈ l := by
  induction l with
  | nil => simp [assocLookup] at h
  | cons x xs ih =>
    obtain ⟨k', v'⟩ := x
    by_cases h2 : k' = k
    · subst h2
      simp [assocLookup] at h
      simp [h]
    · simp [assocLookup, h2] at h
      simp [ih h]

/-- True for the content_block_start event registering block index `idx`. -/
def startsAtIdx (idx : Int) : SSEEvent → Bool
  | .contentBlockStart i _ _ _ => i == idx
  | _ => false

/-- True for the stream-terminating error event. -/
def isErrorEvent : SSEEvent → Bool
  | .errorEvent _ _ => true
  | _ => false

/-- The input_json_delta fragments addressed to block index `idx`, in
arrival order. -/
def jsonFragsAt (idx : Int) : List SSEEvent → List String
  | [] => []
  | .contentBlockDelta i delta :: rest =>
    if i = idx ∧ delta.type_ = "input_json_delta"
    then delta.fragmentJSON :: jsonFragsAt idx rest
    else jsonFragsAt idx rest
  | _ :: rest => jsonFragsAt idx rest

theorem handleMessageStart_toolCalls (it : Option Int) (st : StreamState) :
    (handleMessageStart it st).toolCallsMap = st.toolCallsMap := by
  cases it <;> rfl

theorem handleMessageDelta_toolCalls (sr : String) (ot : Option Int) (st : StreamState) :
    (handleMessageDelta sr ot st).toolCallsMap = st.toolCallsMap := by
  simp only [handleMessageDelta]
  split <;> split_ifs <;> simp_all

/-- On an error-free stream, the loop runs to the end: the yielded
increments and the final response come from folding `stepEvent` over the
whole event list. -/
theorem goStream_no_error (decode : String → Option ArgsMap) :
    ∀ (es : List SSEEvent) (st : StreamState), (∀ e ∈ es, isErrorEvent e = false) →
    goStream decode st es =
      ((es.foldl stepEvent st).increments, some (finalizeStream decode (es.foldl stepEvent st))) := by
  intro es
  induction es with
  | nil => intro st h; simp [goStream]
  | cons e rest ih =>
    intro st h
    have he : isErrorEvent e = false := h e (by simp)
    have hr : ∀ e' ∈ rest, isErrorEvent e' = false := fun e' he' => h e' (by simp [he'])
    cases e with
    | errorEvent errType errMsg => simp [isErrorEvent] at he
    | messageStart inputTokens => simpa [goStream, List.foldl_cons] using ih _ hr
    | contentBlockStart index blockType id name => simpa [goStream] using ih _ hr
    | contentBlockDelta index delta => simpa [goStream] using ih _ hr
    | contentBlockStop index => simpa [goStream] using ih _ hr
    | messageDelta stopReason outputTokens => simpa [goStream] using ih _ hr
    | ping => simpa [goStream] using ih _ hr
    | messageStop => simpa [goStream] using ih _ hr
    | malformed => simpa [goStream] using ih _ hr

/-- Folding the loop over events that never re-register block `idx`
appends exactly the input_json_delta fragments addressed to `idx`, in
arrival order, to the builder registered at `idx`. -/
theorem stepFold_toolArgs (idx : Int) :
    ∀ (es : List SSEEvent) (st : StreamState) (b : ToolCallBuilder),
    (∀ e ∈ es, startsAtIdx idx e = false) →
    assocLookup st.toolCallsMap idx = some b →
    assocLookup ((es.foldl stepEvent st).toolCallsMap) idx =
      some ⟨b.id, b.name, b.args ++ concatS (jsonFragsAt idx es)⟩ := by
  intro es
  induction es with
  | nil =>
    intro st b _ hb
    simpa [jsonFragsAt, concatS, String.append_empty] using hb
  | cons e rest ih =>
    intro st b hs hb
    have hse : startsAtIdx idx e = false := hs e (by simp)
    have hsr : ∀ e' ∈ rest, startsAtIdx idx e' = false := fun e' he' => hs e' (by simp [he'])
    cases e with
    | messageStart inputTokens =>
      simpa [jsonFragsAt] using ih (stepEvent st (.messageStart inputTokens)) b hsr
        (by rw [stepEvent, handleMessageStart_toolCalls]; exact hb)
    | contentBlockStart index blockType id name =>
      have hne : index ≠ idx := by simpa [startsAtIdx] using hse
      have hlook : assocLookup
          (stepEvent st (.contentBlockStart index blockType id name)).toolCallsMap idx = some b := by
        simp only [stepEvent, handleContentBlockStart]
        split_ifs with hbt
        · rw [assocLookup_assocSet_ne _ _ _ _ hne]
          exact hb
        · exact hb
      simpa [jsonFragsAt] using
        ih (stepEvent st (.contentBlockStart index blockType id name)) b hsr hlook
    | contentBlockDelta index delta =>
      by_cases hjson : delta.type_ = "input_json_delta"
      · by_cases hidx : index = idx
        · subst hidx
          have h1 : delta.type_ ≠ "text_delta" := by rw [hjson]; decide
          have h2 : delta.type_ ≠ "thinking_delta" := by rw [hjson]; decide
          have hstep : (stepEvent st (.contentBlockDelta index delta)).toolCallsMap =
              assocSet st.toolCallsMap index ⟨b.id, b.name, b.args ++ delta.fragmentJSON⟩ := by
            simp only [stepEvent, handleContentBlockDelta, if_neg h1, if_neg h2, if_pos hjson, hb]
          have := ih (stepEvent st (.contentBlockDelta index delta))
            ⟨b.id, b.name, b.args ++ delta.fragmentJSON⟩ hsr
            (by rw [hstep]; exact assocLookup_assocSet_eq _ _ _)
          simpa [jsonFragsAt, hjson, concatS, String.append_assoc] using this
        · have h1 : delta.type_ ≠ "text_delta" := by rw [hjson]; decide
          have h2 : delta.type_ ≠ "thinking_delta" := by rw [hjson]; decide
          have hlook2 : assocLookup
              (stepEvent st (.contentBlockDelta index delta)).toolCallsMap idx = some b := by
            simp only [stepEvent, handleContentBlockDelta, if_neg h1, if_neg h2, if_pos hjson]
            cases hlook : assocLookup st.toolCallsMap index with
            | none => exact hb
            | some b' =>
              rw [assocLookup_assocSet_ne _ _ _ _ hidx]
              exact hb
          simpa [jsonFragsAt, hjson, hidx] using
            ih (stepEvent st (.contentBlockDelta index delta)) b hsr hlook2
      · have hlook3 : assocLookup
            (stepEvent st (.contentBlockDelta index delta)).toolCallsMap idx = some b := by
          simp only [stepEvent, handleContentBlockDelta]
          split_ifs <;> simp_all
        simpa [jsonFragsAt, hjson] using
          ih (stepEvent st (.contentBlockDelta index delta)) b hsr hlook3
    | contentBlockStop index =>
      simpa [jsonFragsAt] using ih (stepEvent st (.contentBlockStop index)) b hsr hb
    | messageDelta stopReason outputTokens =>
      simpa [jsonFragsAt] using ih (stepEvent st (.messageDelta stopReason outputTokens)) b hsr
        (by rw [stepEvent, handleMessageDelta_toolCalls]; exact hb)
    | errorEvent errType errMsg =>
      simpa [jsonFragsAt] using ih (stepEvent st (.errorEvent errType errMsg)) b hsr hb
    | ping => simpa [jsonFragsAt] using ih (stepEvent st .ping) b hsr hb
    | messageStop => simpa [jsonFragsAt] using ih (stepEvent st .messageStop) b hsr hb
    | malformed => simpa [jsonFragsAt] using ih (stepEvent st .malformed) b hsr hb

end Anthropic

/-- C2: when a tool_use block's argument JSON arrives split across several
input_json_delta fragments for one block index, the fragments are
concatenated in arrival order and parsed once into the final response's
tool-call arguments (a decode failure yielding the empty object via
parseInputArgs), and the final response is still produced. -/
theorem C2_tool_json_fragment_reconstruction
    (decode : String → Option Anthropic.ArgsMap) (es1 es2 : List Anthropic.SSEEvent)
    (idx : Int) (id name : String)
    (hstart : ∀ e ∈ es2, Anthropic.startsAtIdx idx e = false)
    (herr1 : ∀ e ∈ es1, Anthropic.isErrorEvent e = false)
    (herr2 : ∀ e ∈ es2, Anthropic.isErrorEvent e = false) :
    ∃ incs fin,
      Anthropic.processStream decode
        (es1 ++ .contentBlockStart idx "tool_use" id name :: es2) = (incs, some fin) ∧
      (⟨"", false, some ⟨id, name, Anthropic.parseInputArgs decode
        (.strVal (concatS (Anthropic.jsonFragsAt idx es2)))⟩⟩ : Anthropic.Part) ∈ fin.parts := by
  have herr : ∀ e ∈ es1 ++ (Anthropic.SSEEvent.contentBlockStart idx "tool_use" id name) :: es2,
      Anthropic.isErrorEvent e = false := by
    intro e he
    rcases List.mem_append.mp he with h1 | h2
    · exact herr1 e h1
    · rcases List.mem_cons.mp h2 with rfl | h3
      · rfl
      · exact herr2 e h3
  have hpe := Anthropic.goStream_no_error decode
    (es1 ++ (Anthropic.SSEEvent.contentBlockStart idx "tool_use" id name) :: es2)
    Anthropic.initialStreamState herr
  refine ⟨_, _, hpe, ?_⟩
  rw [List.foldl_append, List.foldl_cons]
  have hreg : Anthropic.assocLookup
      (Anthropic.stepEvent (List.foldl Anthropic.stepEvent Anthropic.initialStreamState es1)
        (.contentBlockStart idx "tool_use" id name)).toolCallsMap idx =
      some ⟨id, name, ""⟩ := by
    simp only [Anthropic.stepEvent, Anthropic.handleContentBlockStart]
    split_ifs with h
    · exact Anthropic.assocLookup_assocSet_eq _ _ _
    · exact absurd trivial h
  have hfin := Anthropic.stepFold_toolArgs idx es2 _ ⟨id, name, ""⟩ hstart hreg
  have hmem := Anthropic.assocLookup_mem _ _ _ hfin
  simp only [Anthropic.finalizeStream]
  refine List.mem_append.mpr (Or.inr (List.mem_map.mpr ⟨_, hmem, ?_⟩))
  simp [Anthropic.toolPart, String.empty_append]

namespace Anthropic

/-- A decoder recognizing exactly the reconstructed scenario-D JSON object. -/
def c2dec : String → Option ArgsMap :=
  fun s => if s = "\x7b\"symbol\":\"sh600519\"\x7d" then some [("symbol", "sh600519")] else none

/-- Scenario D tail: the tool call's argument JSON split across three
input_json_delta fragments. -/
def c2es2 : List SSEEvent :=
  [ .contentBlockDelta 1 ⟨"input_json_delta", "", "\x7b\"sym", ""⟩,
    .contentBlockDelta 1 ⟨"input_json_delta", "", "bol\":\"s", ""⟩,
    .contentBlockDelta 1 ⟨"input_json_delta", "", "h600519\"\x7d", ""⟩,
    .contentBlockStop 1,
    .messageDelta "tool_use" none ]

end Anthropic

/-- Witness for C2 (scenario D): three argument fragments are reconstructed
and parsed into the single tool-call part of the final response. -/
theorem C2_tool_json_fragment_reconstruction_witness :
    ∃ incs fin,
      Anthropic.processStream Anthropic.c2dec
        ([] ++ .contentBlockStart 1 "tool_use" "toolu_1" "get_stock_info" :: Anthropic.c2es2) =
        (incs, some fin) ∧
      (⟨"", false, some ⟨"toolu_1", "get_stock_info",
        [("symbol", "sh600519")]⟩⟩ : Anthropic.Part) ∈ fin.parts := by
  have h := C2_tool_json_fragment_reconstruction Anthropic.c2dec [] Anthropic.c2es2
    1 "toolu_1" "get_stock_info" (by decide) (by decide) (by decide)
  have harg : Anthropic.parseInputArgs Anthropic.c2dec
      (.strVal (concatS (Anthropic.jsonFragsAt 1 Anthropic.c2es2))) =
      [("symbol", "sh600519")] := by decide
  simpa only [harg] using h

/-! ### C3: role merge (mergeConsecutiveMessages / toBlockSlice) -/

namespace Anthropic

/-- ContentBlock — one Anthropic wire content block (all Go fields; the
`Input` field of type `any` reuses `InputVal`, the `Content` field carries
the marshalled JSON string produced by toContentBlocks). -/
structure ContentBlock where
  type_ : String
  text : String
  id : String
  name : String
  input : InputVal
  toolUseID : String
  content : String
  isError : Bool
  thinking : String
  signature : String
deriving DecidableEq

/-- Message.Content is `any` in Go: a []ContentBlock, a string, or any
other value (toBlockSlice's default case). -/
inductive MsgContent where
  | blocks (bs : List ContentBlock)
  | str (s : String)
  | other
deriving DecidableEq

/-- Message — a wire message with a role and dynamic content. -/
structure Message where
  role : String
  content : MsgContent
deriving DecidableEq

/-- toBlockSlice — converts Message.Content (any) to a []ContentBlock: a
string becomes one text block, unknown content becomes nil. -/
def toBlockSlice : MsgContent → List ContentBlock
  | .blocks v => v
  | .str s => [⟨"text", s, "", "", .nullVal, "", "", false, "", ""⟩]
  | .other => []

/-- One iteration of the mergeConsecutiveMessages loop. The Go loop appends
to the tail of `merged`; this embedding keeps the accumulator reversed
(head = most recent message) and reverses once at the end. -/
def mergeStepRev (accRev : List Message) (msg : Message) : List Message :=
  match accRev with
  | last :: restRev =>
    if last.role = msg.role then
      { last with content := .blocks (toBlockSlice last.content ++ toBlockSlice msg.content) }
        :: restRev
    else msg :: last :: restRev
  | [] => [msg]

/-- mergeConsecutiveMessages — merges consecutive messages of the same
role into one message whose content is the concatenation of both block
slices (lists of length ≤ 1 are returned unchanged). -/
def mergeConsecutiveMessages (messages : List Message) : List Message :=
  if messages.length ≤ 1 then messages
  else (messages.foldl mergeStepRev []).reverse

/-- All content blocks of a message list, flattened in order. -/
def blocksView (l : List Message) : List ContentBlock :=
  (l.map (fun m => toBlockSlice m.content)).flatten

theorem blocksView_append (a b : List Message) :
    blocksView (a ++ b) = blocksView a ++ blocksView b := by
  simp [blocksView]

theorem blocksView_single (m : Message) :
    blocksView [m] = toBlockSlice m.content := by
  simp [blocksView]

theorem mergeFold_blocks (ms : List Message) :
    ∀ accRev, blocksView ((ms.foldl mergeStepRev accRev).reverse) =
      blocksView accRev.reverse ++ blocksView ms := by
  induction ms with
  | nil => intro accRev; simp [blocksView]
  | cons m rest ih =>
    intro accRev
    have hstep : blocksView (mergeStepRev accRev m).reverse =
        blocksView accRev.reverse ++ toBlockSlice m.content := by
      cases accRev with
      | nil => simp [mergeStepRev, blocksView]
      | cons last restRev =>
        by_cases hrole : last.role = m.role
        · simp [mergeStepRev, hrole, blocksView_append, blocksView, toBlockSlice,
            List.append_assoc]
        · simp [mergeStepRev, hrole, blocksView_append, blocksView, List.append_assoc]
    rw [List.foldl_cons, ih (mergeStepRev accRev m), hstep]
    simp [blocksView, List.append_assoc]

end Anthropic

/-- C3: the role-merge step drops no content block and preserves the
relative order of blocks — flattening the block slices of the merged
message list yields exactly the flattened block slices of the input. -/
theorem C3_role_merge_preserves_blocks (ms : List Anthropic.Message) :
    Anthropic.blocksView (Anthropic.mergeConsecutiveMessages ms) = Anthropic.blocksView ms := by
  unfold Anthropic.mergeConsecutiveMessages
  split_ifs with h
  · rfl
  · simpa [Anthropic.blocksView] using Anthropic.mergeFold_blocks ms []

/-! ### C4: runSingleAgentWithHistory text accumulation -/

namespace Runner

/-- One genai.Part as seen by the runner's event drain (Go fields Thought,
Text, FunctionCall, FunctionResponse; only the names matter for progress
events, so calls/responses are collapsed to their names). -/
structure RunnerPart where
  thought : Bool
  text : String
  funcCallName : Option String
  funcRespName : Option String
deriving DecidableEq

/-- One event produced by r.Run with a non-nil LLMResponse.Content. Go
field `Partial` is named `isIncremental` here. -/
structure RunnerEvent where
  isIncremental : Bool
  parts : List RunnerPart
deriving DecidableEq

/-- The inner per-part step of the runSingleAgentWithHistory drain loop:
thought parts are skipped; non-empty text is appended when the event is
incremental, or — as a non-streaming fallback — when nothing has been
accumulated yet. -/
def drainPart (inc : Bool) (content : String) (p : RunnerPart) : String :=
  if p.thought then content
  else if p.text ≠ "" then
    (if inc then content ++ p.text
     else if content = "" then content ++ p.text
     else content)
  else content

/-- The per-event step of the drain loop. -/
def drainEvent (content : String) (ev : RunnerEvent) : String :=
  ev.parts.foldl (drainPart ev.isIncremental) content

/-- runSingleAgentWithHistory's returned content: the drain loop folded
over the run's events, starting from the empty string. -/
def runSingleContent (evs : List RunnerEvent) : String :=
  evs.foldl drainEvent ""

/-- The events flattened into (isIncremental, part) pairs, in order. -/
def flatParts (evs : List RunnerEvent) : List (Bool × RunnerPart) :=
  (evs.map (fun ev => ev.parts.map (fun p => (ev.isIncremental, p)))).flatten

/-- The drain step on a flattened pair. -/
def drainPair (content : String) (pr : Bool × RunnerPart) : String :=
  drainPart pr.1 content pr.2

/-- Concatenation of the texts of all non-thought parts of incremental
events — the "partial fragments" of the run. -/
def incConcat (l : List (Bool × RunnerPart)) : String :=
  concatS (l.map (fun pr => if pr.1 && !pr.2.thought then pr.2.text else ""))

/-- The first non-empty visible (non-thought) text among the flattened
parts, together with the incremental flag of its event. -/
def firstVisible : List (Bool × RunnerPart) → Option (Bool × String)
  | [] => none
  | (inc, p) :: rest =>
    if ¬p.thought ∧ p.text ≠ "" then some (inc, p.text) else firstVisible rest

/-- True when no incremental event carries a non-empty non-thought text
(zero partial text fragments were received). -/
def noIncText (l : List (Bool × RunnerPart)) : Bool :=
  l.all (fun pr => !pr.1 || pr.2.thought || pr.2.text == "")

theorem foldl_drainPair_eq (evs : List RunnerEvent) :
    ∀ c, evs.foldl drainEvent c = (flatParts evs).foldl drainPair c := by
  induction evs with
  | nil => intro c; simp [flatParts]
  | cons ev rest ih =>
    intro c
    rw [List.foldl_cons, ih]
    have h1 : flatParts (ev :: rest) =
        ev.parts.map (fun p => (ev.isIncremental, p)) ++ flatParts rest := by
      simp [flatParts]
    rw [h1, List.foldl_append]
    congr 1
    rw [drainEvent, List.foldl_map]
    rfl

theorem drainPair_nonempty_inc (l : List (Bool × RunnerPart)) :
    ∀ c, c ≠ "" → l.foldl drainPair c = c ++ incConcat l := by
  induction l with
  | nil => intro c _; simp [incConcat, concatS, String.append_empty]
  | cons pr rest ih =>
    intro c hc
    obtain ⟨inc, p⟩ := pr
    by_cases hth : p.thought
    · simpa [drainPair, drainPart, hth, incConcat, concatS] using ih c hc
    · by_cases htext : p.text = ""
      · simpa [drainPair, drainPart, hth, htext, incConcat, concatS] using ih c hc
      · cases inc with
        | true =>
          have hne : c ++ p.text ≠ "" := by
            intro hcontra
            exact hc ((string_append_eq_empty_iff c p.text).mp hcontra).1
          have hrest := ih (c ++ p.text) hne
          have hstep : drainPair c (true, p) = c ++ p.text := by
            simp [drainPair, drainPart, hth, htext]
          rw [List.foldl_cons, hstep, hrest]
          have hhead : incConcat ((true, p) :: rest) = p.text ++ incConcat rest := by
            simp [incConcat, concatS, hth]
          rw [hhead, String.append_assoc]
        | false =>
          have hrest := ih c hc
          have hstep : drainPair c (false, p) = c := by
            simp [drainPair, drainPart, hth, htext, hc]
          rw [List.foldl_cons, hstep, hrest]
          have hhead : incConcat ((false, p) :: rest) = incConcat rest := by
            simp [incConcat, concatS]
          rw [hhead]

theorem incConcat_of_noIncText (l : List (Bool × RunnerPart)) (h : noIncText l = true) :
    incConcat l = "" := by
  induction l with
  | nil => rfl
  | cons pr rest ih =>
    obtain ⟨inc, p⟩ := pr
    simp only [noIncText, List.all_cons, Bool.and_eq_true] at h
    have hrest : incConcat rest = "" := ih h.2
    have hhead : (if inc && !p.thought then p.text else "") = "" := by
      rcases Bool.or_eq_true_iff.mp h.1 with h1 | h1
      · rcases Bool.or_eq_true_iff.mp h1 with h2 | h2
        · have : inc = false := by simpa using h2
          simp [this]
        · simp [h2]
      · have : p.text = "" := by simpa using h1
        simp [this]
    have hexp : incConcat ((inc, p) :: rest) =
        (if inc && !p.thought then p.text else "") ++ incConcat rest := by
      simp [incConcat, concatS]
    rw [hexp, hhead, hrest, String.append_empty]


theorem drainPair_firstInc (l : List (Bool × RunnerPart)) :
    ∀ t, firstVisible l = some (true, t) → l.foldl drainPair "" = incConcat l := by
  induction l with
  | nil => intro t h; simp [firstVisible] at h
  | cons pr rest ih =>
    intro t h
    obtain ⟨inc, p⟩ := pr
    by_cases hcond : ¬p.thought ∧ p.text ≠ ""
    · rw [firstVisible, if_pos hcond] at h
      obtain ⟨rfl, rfl⟩ : inc = true ∧ p.text = t := by
        simpa using h
      have hth : p.thought = false := by simpa using hcond.1
      have hstep : drainPair "" (true, p) = p.text := by
        simp [drainPair, drainPart, hth, hcond.2, String.empty_append]
      rw [List.foldl_cons, hstep, drainPair_nonempty_inc rest p.text hcond.2]
      simp [incConcat, concatS, hth]
    · rw [firstVisible, if_neg hcond] at h
      have hstep : drainPair "" (inc, p) = "" := by
        rcases not_and_or.mp hcond with hth | htext
        · have : p.thought = true := by simpa using hth
          simp [drainPair, drainPart, this]
        · have : p.text = "" := by simpa using htext
          simp [drainPair, drainPart, this]
      have hhead : incConcat ((inc, p) :: rest) = incConcat rest := by
        rcases not_and_or.mp hcond with hth | htext
        · have : p.thought = true := by simpa using hth
          simp [incConcat, concatS, this]
        · have : p.text = "" := by simpa using htext
          simp [incConcat, concatS, this]
      rw [List.foldl_cons, hstep, hhead]
      exact ih t h

theorem drainPair_noInc (l : List (Bool × RunnerPart)) (h : noIncText l = true) :
    l.foldl drainPair "" =
      (match firstVisible l with
        | some pr => pr.2
        | none => "") := by
  induction l with
  | nil => rfl
  | cons pr rest ih =>
    obtain ⟨inc, p⟩ := pr
    simp only [noIncText, List.all_cons, Bool.and_eq_true] at h
    by_cases hcond : ¬p.thought ∧ p.text ≠ ""
    · have hth : p.thought = false := by simpa using hcond.1
      have hinc : inc = false := by
        rcases Bool.or_eq_true_iff.mp h.1 with h1 | h1
        · rcases Bool.or_eq_true_iff.mp h1 with h2 | h2
          · simpa using h2
          · exact absurd h2 (by simp [hth])
        · exact absurd (by simpa using h1) hcond.2
      subst hinc
      have hstep : drainPair "" (false, p) = p.text := by
        simp [drainPair, drainPart, hth, hcond.2, String.empty_append]
      rw [List.foldl_cons, hstep, drainPair_nonempty_inc rest p.text hcond.2,
        incConcat_of_noIncText rest h.2, String.append_empty, firstVisible, if_pos hcond]
    · have hstep : drainPair "" (inc, p) = "" := by
        rcases not_and_or.mp hcond with hth | htext
        · have : p.thought = true := by simpa using hth
          simp [drainPair, drainPart, this]
        · have : p.text = "" := by simpa using htext
          simp [drainPair, drainPart, this]
      rw [List.foldl_cons, hstep, firstVisible, if_neg hcond]
      exact ih h.2

/-- Two events that both carry visible text: a non-incremental (final)
event first, then an incremental fragment. -/
def c4evsFinalFirst : List RunnerEvent :=
  [⟨false, [⟨false, "A", none, none⟩]⟩, ⟨true, [⟨false, "B", none, none⟩]⟩]

/-- An incremental fragment followed by a final event repeating the text. -/
def c4evsIncFirst : List RunnerEvent :=
  [⟨true, [⟨false, "B", none, none⟩]⟩, ⟨false, [⟨false, "B", none, none⟩]⟩]

/-- A run with only a final event (no incremental text at all). -/
def c4evsNoInc : List RunnerEvent :=
  [⟨false, [⟨true, "thinking...", none, none⟩, ⟨false, "A", none, none⟩]⟩]

end Runner

/-- C4 counterexample: a run that receives a non-incremental text event
before its first incremental fragment returns the final event's text
followed by the fragment ("AB"), not the concatenation of the incremental
fragments alone ("B") — the non-incremental text is not ignored. -/
theorem C4_counterexample_final_text_not_ignored :
    (Runner.flatParts Runner.c4evsFinalFirst).any
      (fun pr => pr.1 && !pr.2.thought && pr.2.text != "") = true ∧
    Runner.runSingleContent Runner.c4evsFinalFirst = "AB" ∧
    Runner.incConcat (Runner.flatParts Runner.c4evsFinalFirst) = "B" ∧
    Runner.runSingleContent Runner.c4evsFinalFirst ≠
      Runner.incConcat (Runner.flatParts Runner.c4evsFinalFirst) := by decide

/-- C4 (amended): if at least one incremental text fragment is received and
the first non-empty visible text of the run arrives in an incremental
event, the returned text is exactly the concatenation of the incremental
fragments (later non-incremental texts are ignored); if zero incremental
text fragments are received, the returned text is the first non-empty
visible text part of the non-incremental events (empty when there is
none). -/
theorem C4_runner_text_accumulation_amended (evs : List Runner.RunnerEvent) :
    ((∃ t, Runner.firstVisible (Runner.flatParts evs) = some (true, t)) →
      Runner.runSingleContent evs = Runner.incConcat (Runner.flatParts evs)) ∧
    (Runner.noIncText (Runner.flatParts evs) = true →
      Runner.runSingleContent evs =
        (match Runner.firstVisible (Runner.flatParts evs) with
          | some pr => pr.2
          | none => "")) := by
  constructor
  · rintro ⟨t, ht⟩
    rw [Runner.runSingleContent, Runner.foldl_drainPair_eq]
    exact Runner.drainPair_firstInc _ t ht
  · intro h
    rw [Runner.runSingleContent, Runner.foldl_drainPair_eq]
    exact Runner.drainPair_noInc _ h

/-- Witness for C4 (amended) at concrete runs: fragment-first streaming
returns the fragment concatenation; a run with no incremental text returns
the final event's first non-empty visible text. -/
theorem C4_runner_text_accumulation_amended_witness :
    Runner.runSingleContent Runner.c4evsIncFirst = "B" ∧
    Runner.runSingleContent Runner.c4evsNoInc = "A" := by
  have h1 := (C4_runner_text_accumulation_amended Runner.c4evsIncFirst).1 ⟨"B", by decide⟩
  have h2 := (C4_runner_text_accumulation_amended Runner.c4evsNoInc).2 (by decide)
  exact ⟨by rw [h1]; decide, by rw [h2]; decide⟩

/-! ### Meeting orchestrator (Go package `meeting`) -/

namespace Meeting

/-- models.AgentConfig (the fields used by the orchestrator). -/
structure AgentConfig where
  id : String
  name : String
  role : String
deriving DecidableEq

/-- ModeratorDecision — the moderator-analyze outcome: ordered selected
agent ids, topic, and the opening remark. -/
structure Decision where
  selected : List String
  topic : String
  opening : String
deriving DecidableEq

/-- A Go error as the orchestrator distinguishes it: either
context.DeadlineExceeded or any other failure. -/
inductive GoErr where
  | deadlineExceeded
  | failure (msg : String)
deriving DecidableEq

/-- ChatResponse — one Utterance of the transcript. -/
structure ChatResponse where
  agentID : String
  agentName : String
  role : String
  content : String
  round : Nat
  msgType : String
deriving DecidableEq

/-- DiscussionEntry — one recorded successful opinion, fed to later
agents as context and to the moderator's summary. -/
structure DiscussionEntry where
  round : Nat
  agentID : String
  agentName : String
  role : String
  content : String
deriving DecidableEq

/-- The distinct error conditions RunSmartMeetingWithCallback can return
(Go sentinel errors and wrapped failures). -/
inductive MeetingErr where
  | noAIConfig
  | noAgents
  | createModelErr (msg : String)
  | moderatorTimeout
  | analyzeErr (msg : String)
  | meetingTimeout
deriving DecidableEq

/-- The environment of one smart-meeting run: every provider-dependent
step outcome is an input. `expiryStep` is the index of the first per-agent
loop check that observes the meeting deadline expired (`none` = the
deadline never expires during the loop); once expired it stays expired. -/
structure SmartEnv where
  aiConfigPresent : Bool
  allAgents : List AgentConfig
  createModelResult : Option String
  memoryContext : String
  analyzeResult : Except GoErr Decision
  agentRun : Nat → Except GoErr String
  expiryStep : Option Nat
  summaryResult : Except GoErr String

/-- The observable outcome of a smart-meeting run: the transcript, the
returned error, the agents actually attempted (one entry per
runSingleAgentWithHistory call, in order) and the previous-discussion
context string handed to each attempted agent. -/
structure SmartResult where
  transcript : List ChatResponse
  err : Option MeetingErr
  agentsAttempted : List String
  contextsGiven : List String
deriving DecidableEq

/-- The accumulated state when the per-agent loop finishes or stops. -/
structure LoopOut where
  responses : List ChatResponse
  attempted : List String
  contexts : List String
  timedOut : Bool
deriving DecidableEq

/-- filterAgentsOrdered — Go builds a map id ↦ agent (later duplicates
overwrite earlier ones) and then keeps the moderator's id order. -/
def agentMapLookup (all : List AgentConfig) (id : String) : Option AgentConfig :=
  all.reverse.find? (fun a => a.id == id)

/-- filterAgentsOrdered — selects agents by id in the given order. -/
def filterAgentsOrdered (all : List AgentConfig) (ids : List String) : List AgentConfig :=
  ids.filterMap (agentMapLookup all)

/-- One formatted line of buildPreviousContext
(`- name（role）：content` followed by a blank line). -/
def entryLine (e : DiscussionEntry) : String :=
  "- " ++ e.agentName ++ "（" ++ e.role ++ "）：" ++ e.content ++ "\n\n"

/-- buildPreviousContext — the previous-discussion context string: empty
for an empty history, otherwise a header line plus one entry per recorded
opinion, in speaking order. -/
def buildPreviousContext (history : List DiscussionEntry) : String :=
  if history = [] then ""
  else "【前面专家的发言】\n" ++ concatS (history.map entryLine)

/-- The memory-context merge applied before each agent run: a non-empty
memory context is prepended with a newline separator. -/
def withMemory (memoryContext previousContext : String) : String :=
  if memoryContext ≠ "" then memoryContext ++ "\n" ++ previousContext
  else previousContext

/-- Whether the meeting deadline is observed expired at the loop check
before running selected agent `i`. -/
def expiredAt (env : SmartEnv) (i : Nat) : Bool :=
  match env.expiryStep with
  | some k => decide (k ≤ i)
  | none => false

/-- The moderator's opening Utterance (round 0). -/
def moderatorOpening (d : Decision) : ChatResponse :=
  ⟨"moderator", "小韭菜", "会议主持", d.opening, 0, "opening"⟩

/-- One agent's opinion Utterance (round 1). -/
def opinionResp (a : AgentConfig) (content : String) : ChatResponse :=
  ⟨a.id, a.name, a.role, content, 1, "opinion"⟩

/-- The moderator's summary Utterance (round 2). -/
def summaryResp (s : String) : ChatResponse :=
  ⟨"moderator", "小韭菜", "会议主持", s, 2, "summary"⟩

/-- The DiscussionEntry recorded for a successful opinion (round 1). -/
def mkEntry (a : AgentConfig) (content : String) : DiscussionEntry :=
  ⟨1, a.id, a.name, a.role, content⟩

/-- The per-agent sequential loop of RunSmartMeetingWithCallback: before
each agent the meeting deadline is checked (stop with the responses so
far on expiry); then the agent runs with the previous-discussion context;
a per-agent error only skips that agent, a success appends its opinion to
the responses and to the history fed to later agents. -/
def smartLoop (env : SmartEnv) (i : Nat) (history : List DiscussionEntry)
    (responses : List ChatResponse) (attempted contexts : List String) :
    List AgentConfig → LoopOut
  | [] => ⟨responses, attempted, contexts, false⟩
  | a :: rest =>
    if expiredAt env i then ⟨responses, attempted, contexts, true⟩
    else
      let ctx := withMemory env.memoryContext (buildPreviousContext history)
      match env.agentRun i with
      | .error _ =>
        smartLoop env (i + 1) history responses (attempted ++ [a.id]) (contexts ++ [ctx]) rest
      | .ok content =>
        smartLoop env (i + 1) (history ++ [mkEntry a content])
          (responses ++ [opinionResp a content]) (attempted ++ [a.id]) (contexts ++ [ctx]) rest

/-- RunSmartMeetingWithCallback: configuration guards, model creation,
moderator analyze (deadline expiry mapping to the distinct
moderator-timeout error), opening, sequential per-agent loop, and the
moderator summary whose failure degrades to returning the responses with
a nil error (an empty summary is not appended). -/
def runSmartMeeting (env : SmartEnv) : SmartResult :=
  if env.aiConfigPresent = false then ⟨[], some .noAIConfig, [], []⟩
  else if env.allAgents = [] then ⟨[], some .noAgents, [], []⟩
  else
    match env.createModelResult with
    | some msg => ⟨[], some (.createModelErr msg), [], []⟩
    | none =>
      match env.analyzeResult with
      | .error .deadlineExceeded => ⟨[], some .moderatorTimeout, [], []⟩
      | .error (.failure m) => ⟨[], some (.analyzeErr m), [], []⟩
      | .ok d =>
        let selected := filterAgentsOrdered env.allAgents d.selected
        if selected = [] then ⟨[moderatorOpening d], none, [], []⟩
        else
          let lo := smartLoop env 0 [] [moderatorOpening d] [] [] selected
          if lo.timedOut then ⟨lo.responses, some .meetingTimeout, lo.attempted, lo.contexts⟩
          else
            match env.summaryResult with
            | .error _ => ⟨lo.responses, none, lo.attempted, lo.contexts⟩
            | .ok s =>
              if s = "" then ⟨lo.responses, none, lo.attempted, lo.contexts⟩
              else ⟨lo.responses ++ [summaryResp s], none, lo.attempted, lo.contexts⟩

/-- The agents the moderator selected (empty when analyze failed). -/
def smartSelected (env : SmartEnv) : List AgentConfig :=
  match env.analyzeResult with
  | .ok d => filterAgentsOrdered env.allAgents d.selected
  | .error _ => []

/-- The opinion Utterances the successful agents contribute, in order,
starting at loop index `i`. -/
def opinionsFrom (env : SmartEnv) : Nat → List AgentConfig → List ChatResponse
  | _, [] => []
  | i, a :: rest =>
    match env.agentRun i with
    | .ok content => opinionResp a content :: opinionsFrom env (i + 1) rest
    | .error _ => opinionsFrom env (i + 1) rest

/-- The context strings handed to the agents, in order, starting at loop
index `i` with accumulated history `hist`. -/
def contextsFrom (env : SmartEnv) : Nat → List DiscussionEntry → List AgentConfig → List String
  | _, _, [] => []
  | i, hist, a :: rest =>
    let c := withMemory env.memoryContext (buildPreviousContext hist)
    match env.agentRun i with
    | .ok content =>
      c :: contextsFrom env (i + 1) (hist ++ [mkEntry a content]) rest
    | .error _ => c :: contextsFrom env (i + 1) hist rest

/-- The contents of the successful agent runs, in order, starting at loop
index `i`. -/
def succContents (env : SmartEnv) : Nat → List AgentConfig → List String
  | _, [] => []
  | i, _ :: rest =>
    match env.agentRun i with
    | .ok content => content :: succContents env (i + 1) rest
    | .error _ => succContents env (i + 1) rest

/-- The summary Utterances appended after the loop (none on summary
failure or an empty summary string). -/
def summaryTail (env : SmartEnv) : List ChatResponse :=
  match env.summaryResult with
  | .ok s => if s = "" then [] else [summaryResp s]
  | .error _ => []

/-- How many of `n` queued agents the loop starting at index `i` actually
processes before the deadline check stops it. -/
def stepsRun (env : SmartEnv) (i : Nat) (n : Nat) : Nat :=
  match env.expiryStep with
  | none => n
  | some k => min n (k - i)

/-- `cs` occur in `s` verbatim, in order, without overlap. -/
def containsInOrder (s : String) : List String → Prop
  | [] => True
  | c :: cs => ∃ u v, s = u ++ c ++ v ∧ containsInOrder v cs

end Meeting

namespace Meeting

theorem smartLoop_runs_all (env : SmartEnv) :
    ∀ (agents : List AgentConfig) (i : Nat) (history : List DiscussionEntry)
      (responses : List ChatResponse) (attempted contexts : List String),
    (∀ j, j < agents.length → expiredAt env (i + j) = false) →
    smartLoop env i history responses attempted contexts agents =
      ⟨responses ++ opinionsFrom env i agents, attempted ++ agents.map (fun a => a.id),
       contexts ++ contextsFrom env i history agents, false⟩ := by
  intro agents
  induction agents with
  | nil =>
    intro i history responses attempted contexts _
    simp [smartLoop, opinionsFrom, contextsFrom]
  | cons a rest ih =>
    intro i history responses attempted contexts h
    have h0 : expiredAt env i = false := by simpa using h 0 (by simp)
    have hrest : ∀ j, j < rest.length → expiredAt env (i + 1 + j) = false := by
      intro j hj
      have := h (j + 1) (by simpa using Nat.succ_lt_succ hj)
      simpa [Nat.add_assoc, Nat.add_comm 1 j] using this
    rw [smartLoop, if_neg (by simp [h0])]
    cases hrun : env.agentRun i with
    | error e =>
      show smartLoop env (i + 1) history responses (attempted ++ [a.id])
        (contexts ++ [withMemory env.memoryContext (buildPreviousContext history)]) rest = _
      rw [ih (i + 1) history responses (attempted ++ [a.id])
        (contexts ++ [withMemory env.memoryContext (buildPreviousContext history)]) hrest]
      simp [opinionsFrom, contextsFrom, hrun, List.append_assoc]
    | ok content =>
      show smartLoop env (i + 1) (history ++ [mkEntry a content])
        (responses ++ [opinionResp a content]) (attempted ++ [a.id])
        (contexts ++ [withMemory env.memoryContext (buildPreviousContext history)]) rest = _
      rw [ih (i + 1) (history ++ [mkEntry a content])
        (responses ++ [opinionResp a content]) (attempted ++ [a.id])
        (contexts ++ [withMemory env.memoryContext (buildPreviousContext history)]) hrest]
      simp [opinionsFrom, contextsFrom, hrun, List.append_assoc]

theorem smartLoop_truncates (env : SmartEnv) (k : Nat) (hk : env.expiryStep = some k) :
    ∀ (agents : List AgentConfig) (i : Nat) (history : List DiscussionEntry)
      (responses : List ChatResponse) (attempted contexts : List String),
    i ≤ k → k < i + agents.length →
    smartLoop env i history responses attempted contexts agents =
      ⟨responses ++ opinionsFrom env i (agents.take (k - i)),
       attempted ++ (agents.take (k - i)).map (fun a => a.id),
       contexts ++ contextsFrom env i history (agents.take (k - i)), true⟩ := by
  intro agents
  induction agents with
  | nil =>
    intro i history responses attempted contexts hik hk2
    simp only [List.length_nil, Nat.add_zero] at hk2
    omega
  | cons a rest ih =>
    intro i history responses attempted contexts hik hk2
    by_cases hie : k ≤ i
    · have hki : k = i := Nat.le_antisymm hie hik
      have hexp : expiredAt env i = true := by simp [expiredAt, hk, hie]
      rw [smartLoop, if_pos (by simp [hexp])]
      have : k - i = 0 := by omega
      simp [this, opinionsFrom, contextsFrom]
    · have hlt : i < k := Nat.lt_of_not_le hie
      have hexp : expiredAt env i = false := by
        simp [expiredAt, hk]
        omega
      rw [smartLoop, if_neg (by simp [hexp])]
      have hsub : k - i = (k - (i + 1)) + 1 := by omega
      cases hrun : env.agentRun i with
      | error e =>
        show smartLoop env (i + 1) history responses (attempted ++ [a.id])
          (contexts ++ [withMemory env.memoryContext (buildPreviousContext history)]) rest = _
        rw [ih (i + 1) history responses (attempted ++ [a.id])
          (contexts ++ [withMemory env.memoryContext (buildPreviousContext history)])
          (by omega) (by simp at hk2 ⊢; omega)]
        rw [hsub]
        simp [opinionsFrom, contextsFrom, hrun, List.take_succ_cons, List.append_assoc]
      | ok content =>
        show smartLoop env (i + 1) (history ++ [mkEntry a content])
          (responses ++ [opinionResp a content]) (attempted ++ [a.id])
          (contexts ++ [withMemory env.memoryContext (buildPreviousContext history)]) rest = _
        rw [ih (i + 1) (history ++ [mkEntry a content])
          (responses ++ [opinionResp a content]) (attempted ++ [a.id])
          (contexts ++ [withMemory env.memoryContext (buildPreviousContext history)])
          (by omega) (by simp at hk2 ⊢; omega)]
        rw [hsub]
        simp [opinionsFrom, contextsFrom, hrun, List.take_succ_cons, List.append_assoc]

theorem smartLoop_responses_ne (env : SmartEnv) :
    ∀ (agents : List AgentConfig) (i : Nat) (history : List DiscussionEntry)
      (responses : List ChatResponse) (attempted contexts : List String),
    responses ≠ [] →
    (smartLoop env i history responses attempted contexts agents).responses ≠ [] := by
  intro agents
  induction agents with
  | nil => intro i history responses attempted contexts h; simpa [smartLoop] using h
  | cons a rest ih =>
    intro i history responses attempted contexts h
    rw [smartLoop]
    split_ifs with hexp
    · simpa using h
    · cases hrun : env.agentRun i with
      | error e => exact ih _ _ _ _ _ h
      | ok content => exact ih _ _ _ _ _ (by simp)

end Meeting

/-- C5: when the moderator-analyze step exceeds its deadline, the whole
deliberation fails before any agent is run: empty transcript, the distinct
moderator-timeout condition (not a generic error), zero attempted agents. -/
theorem C5_moderator_timeout_aborts_all (env : Meeting.SmartEnv)
    (h1 : env.aiConfigPresent = true) (h2 : env.allAgents ≠ [])
    (h3 : env.createModelResult = none)
    (h4 : env.analyzeResult = .error .deadlineExceeded) :
    Meeting.runSmartMeeting env = ⟨[], some .moderatorTimeout, [], []⟩ := by
  simp [Meeting.runSmartMeeting, h1, h2, h3, h4]

namespace Meeting

/-- A roster of three agents used by the concrete meeting scenarios. -/
def rosterW : List AgentConfig :=
  [⟨"a1", "张三", "技术分析师"⟩, ⟨"a2", "李四", "基本面分析师"⟩, ⟨"a3", "王五", "情绪分析师"⟩]

/-- A concrete environment whose moderator-analyze step deadlines out. -/
def c5env : SmartEnv :=
  { aiConfigPresent := true, allAgents := rosterW, createModelResult := none,
    memoryContext := "", analyzeResult := .error .deadlineExceeded,
    agentRun := fun _ => .ok "不应运行", expiryStep := none, summaryResult := .ok "" }

end Meeting

/-- Witness for C5 at a concrete environment. -/
theorem C5_moderator_timeout_aborts_all_witness :
    Meeting.runSmartMeeting Meeting.c5env = ⟨[], some .moderatorTimeout, [], []⟩ :=
  C5_moderator_timeout_aborts_all Meeting.c5env rfl (by decide) rfl rfl

/-- C6: with the session deadline never expiring during the loop, every
selected agent is attempted in order, a per-agent error only skips that
agent's Utterance, no error reaches the caller, and the transcript is the
opening, the successful opinions in speaking order, then the summary. -/
theorem C6_per_agent_errors_skipped (env : Meeting.SmartEnv) (d : Meeting.Decision)
    (h1 : env.aiConfigPresent = true) (h2 : env.allAgents ≠ [])
    (h3 : env.createModelResult = none) (h4 : env.analyzeResult = .ok d)
    (h5 : Meeting.filterAgentsOrdered env.allAgents d.selected ≠ [])
    (h6 : env.expiryStep = none) :
    Meeting.runSmartMeeting env =
      ⟨Meeting.moderatorOpening d ::
        (Meeting.opinionsFrom env 0 (Meeting.filterAgentsOrdered env.allAgents d.selected)
          ++ Meeting.summaryTail env),
       none,
       (Meeting.filterAgentsOrdered env.allAgents d.selected).map (fun a => a.id),
       Meeting.contextsFrom env 0 [] (Meeting.filterAgentsOrdered env.allAgents d.selected)⟩ := by
  have hloop := Meeting.smartLoop_runs_all env
    (Meeting.filterAgentsOrdered env.allAgents d.selected) 0 []
    [Meeting.moderatorOpening d] [] []
    (by intro j hj; simp [Meeting.expiredAt, h6])
  simp only [Meeting.runSmartMeeting, h1, h3, h4, Bool.true_eq_false, if_false, ite_false,
    if_neg h2, if_neg h5]
  rw [hloop]
  cases hsum : env.summaryResult with
  | ok s =>
    by_cases hs : s = "" <;>
      simp [hsum, hs, Meeting.summaryTail, List.append_assoc]
  | error e => simp [hsum, Meeting.summaryTail]

namespace Meeting

/-- Scenario B environment: three selected agents, agent 2 exceeds its
per-agent deadline, the others and the summary succeed. -/
def c6env : SmartEnv :=
  { aiConfigPresent := true, allAgents := rosterW, createModelResult := none,
    memoryContext := "",
    analyzeResult := .ok ⟨["a1", "a2", "a3"], "技术面讨论", "大家好，开始讨论"⟩,
    agentRun := fun i =>
      if i = 0 then .ok "观点一"
      else if i = 1 then .error .deadlineExceeded
      else .ok "观点三",
    expiryStep := none, summaryResult := .ok "总结完毕" }

end Meeting

/-- Witness for C6 (scenario B): agent 2's timeout leaves exactly four
Utterances (opening, agent 1, agent 3, summary), all three agents were
attempted, and no error reaches the caller. -/
theorem C6_per_agent_errors_skipped_witness :
    Meeting.runSmartMeeting Meeting.c6env =
      ⟨[⟨"moderator", "小韭菜", "会议主持", "大家好，开始讨论", 0, "opening"⟩,
        ⟨"a1", "张三", "技术分析师", "观点一", 1, "opinion"⟩,
        ⟨"a3", "王五", "情绪分析师", "观点三", 1, "opinion"⟩,
        ⟨"moderator", "小韭菜", "会议主持", "总结完毕", 2, "summary"⟩],
       none, ["a1", "a2", "a3"],
       ["", "【前面专家的发言】\n- 张三（技术分析师）：观点一\n\n",
        "【前面专家的发言】\n- 张三（技术分析师）：观点一\n\n"]⟩ :=
  (C6_per_agent_errors_skipped Meeting.c6env
    ⟨["a1", "a2", "a3"], "技术面讨论", "大家好，开始讨论"⟩
    rfl (by decide) rfl rfl (by decide) rfl).trans (by decide)

namespace Meeting

/-- A deliberation in which the session deadline expires only after the
last per-agent check (the single agent has spoken), so the summarize step
is the one that hits the expired deadline. -/
def c7xenv : SmartEnv :=
  { aiConfigPresent := true, allAgents := rosterW, createModelResult := none,
    memoryContext := "",
    analyzeResult := .ok ⟨["a1"], "话题", "开场"⟩,
    agentRun := fun _ => .ok "唯一观点",
    expiryStep := some 1,
    summaryResult := .error .deadlineExceeded }

end Meeting

instance {ε α : Type} [DecidableEq ε] [DecidableEq α] : DecidableEq (Except ε α) :=
  fun a b =>
    match a, b with
    | .ok x, .ok y =>
      if h : x = y then .isTrue (by rw [h]) else .isFalse (fun hc => h (Except.ok.inj hc))
    | .error x, .error y =>
      if h : x = y then .isTrue (by rw [h]) else .isFalse (fun hc => h (Except.error.inj hc))
    | .ok _, .error _ => .isFalse (fun hc => Except.noConfusion hc)
    | .error _, .ok _ => .isFalse (fun hc => Except.noConfusion hc)

/-- C7 counterexample: when the whole-session deadline expires after the
last per-agent check (here during the summarize step, whose call returns
deadline-exceeded), the orchestrator returns the Utterances produced so
far with a nil error — not flagged by any timeout condition — refuting the
claim that every expiry path returns a distinct timeout signal. -/
theorem C7_counterexample_summary_expiry_unflagged :
    Meeting.c7xenv.expiryStep = some 1 ∧
    Meeting.c7xenv.summaryResult = Except.error .deadlineExceeded ∧
    (Meeting.runSmartMeeting Meeting.c7xenv).err = none ∧
    (Meeting.runSmartMeeting Meeting.c7xenv).transcript.length = 2 := by decide

/-- C7 (amended): the session deadline is checked before each per-agent
step only; if it expires before per-agent check k < number selected, the
orchestrator stops there and returns the opening plus the opinions of the
agents that already spoke, flagged with the meeting-timeout error. If it
instead expires after the last per-agent check, the summarize step fails
with deadline-exceeded and the Utterances produced so far are returned
with a nil error (no summary, no timeout flag). -/
theorem C7_session_deadline_amended (env : Meeting.SmartEnv) (d : Meeting.Decision) (k : Nat)
    (h1 : env.aiConfigPresent = true) (h2 : env.allAgents ≠ [])
    (h3 : env.createModelResult = none) (h4 : env.analyzeResult = .ok d)
    (h5 : Meeting.filterAgentsOrdered env.allAgents d.selected ≠ [])
    (hk : env.expiryStep = some k) :
    (k < (Meeting.filterAgentsOrdered env.allAgents d.selected).length →
      Meeting.runSmartMeeting env =
        ⟨Meeting.moderatorOpening d ::
          Meeting.opinionsFrom env 0
            ((Meeting.filterAgentsOrdered env.allAgents d.selected).take k),
         some .meetingTimeout,
         ((Meeting.filterAgentsOrdered env.allAgents d.selected).take k).map (fun a => a.id),
         Meeting.contextsFrom env 0 []
           ((Meeting.filterAgentsOrdered env.allAgents d.selected).take k)⟩) ∧
    ((Meeting.filterAgentsOrdered env.allAgents d.selected).length ≤ k →
      env.summaryResult = .error .deadlineExceeded →
      Meeting.runSmartMeeting env =
        ⟨Meeting.moderatorOpening d ::
          Meeting.opinionsFrom env 0 (Meeting.filterAgentsOrdered env.allAgents d.selected),
         none,
         (Meeting.filterAgentsOrdered env.allAgents d.selected).map (fun a => a.id),
         Meeting.contextsFrom env 0 []
           (Meeting.filterAgentsOrdered env.allAgents d.selected)⟩) := by
  constructor
  · intro hlen
    have hloop := Meeting.smartLoop_truncates env k hk
      (Meeting.filterAgentsOrdered env.allAgents d.selected) 0 []
      [Meeting.moderatorOpening d] [] [] (Nat.zero_le k) (by simpa using hlen)
    simp only [Meeting.runSmartMeeting, h1, h3, h4, Bool.true_eq_false, if_false, ite_false,
      if_neg h2, if_neg h5]
    rw [hloop]
    simp [Nat.sub_zero]
  · intro hlen hsum
    have hloop := Meeting.smartLoop_runs_all env
      (Meeting.filterAgentsOrdered env.allAgents d.selected) 0 []
      [Meeting.moderatorOpening d] [] []
      (by
        intro j hj
        simp [Meeting.expiredAt, hk]
        omega)
    simp only [Meeting.runSmartMeeting, h1, h3, h4, Bool.true_eq_false, if_false, ite_false,
      if_neg h2, if_neg h5]
    rw [hloop]
    simp [hsum]

namespace Meeting

/-- A roster of five agents for scenario E. -/
def roster5 : List AgentConfig :=
  [⟨"a1", "张三", "技术分析师"⟩, ⟨"a2", "李四", "基本面分析师"⟩, ⟨"a3", "王五", "情绪分析师"⟩,
   ⟨"a4", "赵六", "资金面分析师"⟩, ⟨"a5", "钱七", "宏观分析师"⟩]

/-- Scenario E environment: five selected agents, the session deadline
expires before the third per-agent check. -/
def c7env : SmartEnv :=
  { aiConfigPresent := true, allAgents := roster5, createModelResult := none,
    memoryContext := "",
    analyzeResult := .ok ⟨["a1", "a2", "a3", "a4", "a5"], "全面讨论", "开始吧"⟩,
    agentRun := fun i => if i = 0 then .ok "观点一" else .ok "观点二",
    expiryStep := some 2,
    summaryResult := .error .deadlineExceeded }

end Meeting

/-- Witness for C7 (amended), scenario E: expiry after 2 of 5 agents have
spoken returns exactly the opening plus those 2 opinions, flagged with the
meeting-timeout error. -/
theorem C7_session_deadline_amended_witness :
    Meeting.runSmartMeeting Meeting.c7env =
      ⟨[⟨"moderator", "小韭菜", "会议主持", "开始吧", 0, "opening"⟩,
        ⟨"a1", "张三", "技术分析师", "观点一", 1, "opinion"⟩,
        ⟨"a2", "李四", "基本面分析师", "观点二", 1, "opinion"⟩],
       some .meetingTimeout, ["a1", "a2"],
       ["", "【前面专家的发言】\n- 张三（技术分析师）：观点一\n\n"]⟩ :=
  ((C7_session_deadline_amended Meeting.c7env
    ⟨["a1", "a2", "a3", "a4", "a5"], "全面讨论", "开始吧"⟩ 2
    rfl (by decide) rfl rfl (by decide) rfl).1 (by decide)).trans (by decide)

/-! ### C8: never a silent empty success? -/

namespace Meeting

/-- The environment of one panel-mode run (runAgentsParallel): the
addressed agents and each agent goroutine's outcome. -/
structure PanelEnv where
  agents : List AgentConfig
  agentRun : Nat → Except GoErr String

/-- The observable outcome of a panel run. -/
structure PanelResult where
  transcript : List ChatResponse
  err : Option MeetingErr
  agentsAttempted : List String
deriving DecidableEq

/-- The responses collected by the panel goroutines: failed or timed-out
agents contribute nothing (Round and MsgType are left at their Go zero
values). Go appends under a mutex in completion order, which is
nondeterministic; this embedding fixes launch order — the properties
verified here do not depend on the order. -/
def collectPanel (env : PanelEnv) : Nat → List AgentConfig → List ChatResponse
  | _, [] => []
  | i, a :: rest =>
    match env.agentRun i with
    | .ok content => ⟨a.id, a.name, a.role, content, 0, ""⟩ :: collectPanel env (i + 1) rest
    | .error _ => collectPanel env (i + 1) rest

/-- runAgentsParallel — runs every addressed agent, collects the
successful responses only, and always returns a nil error. -/
def runAgentsParallel (env : PanelEnv) : PanelResult :=
  ⟨collectPanel env 0 env.agents, none, env.agents.map (fun a => a.id)⟩

/-- True when the agent outcome is a failure. -/
def exceptFailed {α : Type} : Except GoErr α → Bool
  | .ok _ => false
  | .error _ => true

/-- A panel run with one addressed agent whose run times out. -/
def c8xenv : PanelEnv :=
  ⟨[⟨"a1", "张三", "技术分析师"⟩], fun _ => .error .deadlineExceeded⟩

theorem smartResult_transcript_of_err_none (env : SmartEnv) :
    (runSmartMeeting env).transcript = [] → (runSmartMeeting env).err ≠ none := by
  intro htr herr
  rcases hr : runSmartMeeting env with ⟨tr, er, att, ctxs⟩
  rw [hr] at htr herr
  simp only at htr herr
  subst htr
  subst herr
  unfold runSmartMeeting at hr
  split_ifs at hr with h1 h2
  · simp at hr
  · simp at hr
  · split at hr
    · simp at hr
    · split at hr
      · simp at hr
      · simp at hr
      · rename_i dsel hd
        dsimp only at hr
        split_ifs at hr with h5 h6
        · simp at hr
        · simp at hr
        · have hne := smartLoop_responses_ne env
            (filterAgentsOrdered env.allAgents dsel.selected) 0 []
            [moderatorOpening dsel] [] [] (by simp)
          split at hr
          · simp only [SmartResult.mk.injEq] at hr
            exact hne hr.1
          · split_ifs at hr with h7
            · simp only [SmartResult.mk.injEq] at hr
              exact hne hr.1
            · simp only [SmartResult.mk.injEq] at hr
              exact absurd hr.1 (by simp)
  
end Meeting

/-- C8 counterexample: a panel-mode deliberation in which the only
addressed (and attempted) agent fails returns an empty transcript with a
nil error — a silent empty success, refuting the claim that callers always
get a transcript, a flagged partial result, or a hard failure. -/
theorem C8_counterexample_silent_empty_panel :
    (Meeting.runAgentsParallel Meeting.c8xenv).agentsAttempted ≠ [] ∧
    (Meeting.runAgentsParallel Meeting.c8xenv).transcript = [] ∧
    (Meeting.runAgentsParallel Meeting.c8xenv).err = none := by decide

/-- C8 (amended): in smart mode an empty transcript is always accompanied
by a non-nil error (configuration, model-creation, moderator analyze
failure or timeout), so no silent empty success exists there; in panel
mode, however, when every attempted agent fails the caller receives an
empty transcript with a nil error. -/
theorem C8_empty_transcript_amended :
    (∀ env : Meeting.SmartEnv,
      (Meeting.runSmartMeeting env).transcript = [] →
      (Meeting.runSmartMeeting env).err ≠ none) ∧
    (∀ penv : Meeting.PanelEnv,
      (∀ i, i < penv.agents.length → Meeting.exceptFailed (penv.agentRun i) = true) →
      Meeting.runAgentsParallel penv = ⟨[], none, penv.agents.map (fun a => a.id)⟩) := by
  constructor
  · exact Meeting.smartResult_transcript_of_err_none
  · intro penv h
    have hcollect : ∀ (agents : List Meeting.AgentConfig) (i : Nat),
        (∀ j, j < agents.length → Meeting.exceptFailed (penv.agentRun (i + j)) = true) →
        Meeting.collectPanel penv i agents = [] := by
      intro agents
      induction agents with
      | nil => intro i _; rfl
      | cons a rest ih =>
        intro i hfail
        have h0 : Meeting.exceptFailed (penv.agentRun i) = true := by
          simpa using hfail 0 (by simp)
        rw [Meeting.collectPanel]
        cases hrun : penv.agentRun i with
        | ok content => rw [hrun] at h0; simp [Meeting.exceptFailed] at h0
        | error e =>
          exact ih (i + 1) (fun j hj => by
            simpa [Nat.add_assoc, Nat.add_comm 1 j] using hfail (j + 1) (by simpa using Nat.succ_lt_succ hj))
    unfold Meeting.runAgentsParallel
    rw [hcollect penv.agents 0 (fun j hj => by simpa using h j hj)]

namespace Meeting

/-- A two-agent panel in which both runs fail. -/
def c8wenv : PanelEnv :=
  ⟨[⟨"a1", "张三", "技术分析师"⟩, ⟨"a2", "李四", "基本面分析师"⟩],
   fun i => if i = 0 then .error .deadlineExceeded else .error (.failure "调用失败")⟩

/-- A smart-mode environment with no AI configuration. -/
def c8senv : SmartEnv :=
  { aiConfigPresent := false, allAgents := [], createModelResult := none,
    memoryContext := "", analyzeResult := .error (.failure "unused"),
    agentRun := fun _ => .ok "", expiryStep := none, summaryResult := .ok "" }

end Meeting

/-- Witness for C8 (amended) at concrete inputs: the empty-transcript
smart run carries a non-nil error, and an all-fail panel run returns the
empty transcript with nil error and both agents attempted. -/
theorem C8_empty_transcript_amended_witness :
    (Meeting.runSmartMeeting Meeting.c8senv).err ≠ none ∧
    Meeting.runAgentsParallel Meeting.c8wenv = ⟨[], none, ["a1", "a2"]⟩ := by
  constructor
  · exact C8_empty_transcript_amended.1 Meeting.c8senv (by decide)
  · exact (C8_empty_transcript_amended.2 Meeting.c8wenv (by decide)).trans (by decide)

/-! ### C9: previous-discussion context contents -/

namespace Meeting

theorem containsInOrder_prepend (a s : String) (cs : List String)
    (h : containsInOrder s cs) : containsInOrder (a ++ s) cs := by
  cases cs with
  | nil => trivial
  | cons c rest =>
    obtain ⟨u, v, heq, hrest⟩ := h
    exact ⟨a ++ u, v, by rw [heq, ← String.append_assoc, ← String.append_assoc], hrest⟩

theorem entries_contains (history : List DiscussionEntry) :
    containsInOrder (concatS (history.map entryLine))
      (history.map (fun e => e.content)) := by
  induction history with
  | nil => trivial
  | cons e rest ih =>
    refine ⟨"- " ++ e.agentName ++ "（" ++ e.role ++ "）：",
      "\n\n" ++ concatS (rest.map entryLine), ?_, containsInOrder_prepend _ _ _ ih⟩
    simp [concatS, entryLine, String.append_assoc]

theorem buildPreviousContext_contains (history : List DiscussionEntry) :
    containsInOrder (buildPreviousContext history)
      (history.map (fun e => e.content)) := by
  cases history with
  | nil => trivial
  | cons e rest =>
    rw [buildPreviousContext, if_neg (by simp)]
    exact containsInOrder_prepend _ _ _ (entries_contains (e :: rest))

theorem withMemory_contains (m s : String) (cs : List String)
    (h : containsInOrder s cs) : containsInOrder (withMemory m s) cs := by
  unfold withMemory
  split_ifs with hm
  · exact containsInOrder_prepend _ _ _ h
  · exact h

theorem contextsFrom_length (env : SmartEnv) :
    ∀ (agents : List AgentConfig) (i : Nat) (hist : List DiscussionEntry),
    (contextsFrom env i hist agents).length = agents.length := by
  intro agents
  induction agents with
  | nil => intro i hist; rfl
  | cons a rest ih =>
    intro i hist
    rw [contextsFrom]
    cases hrun : env.agentRun i with
    | ok content =>
      show (withMemory env.memoryContext (buildPreviousContext hist) ::
        contextsFrom env (i + 1) (hist ++ [mkEntry a content]) rest).length = _
      simp [ih]
    | error e =>
      show (withMemory env.memoryContext (buildPreviousContext hist) ::
        contextsFrom env (i + 1) hist rest).length = _
      simp [ih]

theorem contextsFrom_get (env : SmartEnv) :
    ∀ (agents : List AgentConfig) (i : Nat) (hist : List DiscussionEntry) (j : Nat) (c : String),
    (contextsFrom env i hist agents).get? j = some c →
    containsInOrder c
      (hist.map (fun e => e.content) ++ succContents env i (agents.take j)) := by
  intro agents
  induction agents with
  | nil => intro i hist j c h; simp [contextsFrom] at h
  | cons a rest ih =>
    intro i hist j c h
    rw [contextsFrom] at h
    cases hrun : env.agentRun i with
    | ok content =>
      rw [hrun] at h
      have h' : (withMemory env.memoryContext (buildPreviousContext hist) ::
          contextsFrom env (i + 1) (hist ++ [mkEntry a content]) rest).get? j = some c := h
      cases j with
      | zero =>
        simp only [List.get?_cons_zero, Option.some.injEq] at h'
        subst h'
        simpa [succContents] using withMemory_contains _ _ _ (buildPreviousContext_contains hist)
      | succ j' =>
        rw [List.get?_cons_succ] at h'
        have hcont := ih (i + 1) (hist ++ [mkEntry a content]) j' c h'
        simp only [List.map_append, List.append_assoc] at hcont
        have hgoal : succContents env i ((a :: rest).take (j' + 1)) =
            content :: succContents env (i + 1) (rest.take j') := by
          rw [List.take_succ_cons, succContents]
          rw [hrun]
        rw [hgoal]
        simpa [mkEntry] using hcont
    | error e =>
      rw [hrun] at h
      have h' : (withMemory env.memoryContext (buildPreviousContext hist) ::
          contextsFrom env (i + 1) hist rest).get? j = some c := h
      cases j with
      | zero =>
        simp only [List.get?_cons_zero, Option.some.injEq] at h'
        subst h'
        simpa [succContents] using withMemory_contains _ _ _ (buildPreviousContext_contains hist)
      | succ j' =>
        rw [List.get?_cons_succ] at h'
        have hcont := ih (i + 1) hist j' c h'
        have hgoal : succContents env i ((a :: rest).take (j' + 1)) =
            succContents env (i + 1) (rest.take j') := by
          rw [List.take_succ_cons, succContents]
          rw [hrun]
        rw [hgoal]
        exact hcont

theorem smartLoop_contexts (env : SmartEnv) :
    ∀ (agents : List AgentConfig) (i : Nat) (hist : List DiscussionEntry)
      (resp : List ChatResponse) (att ctx : List String),
    (smartLoop env i hist resp att ctx agents).contexts =
      ctx ++ contextsFrom env i hist (agents.take (stepsRun env i agents.length)) := by
  intro agents
  induction agents with
  | nil =>
    intro i hist resp att ctx
    simp [smartLoop, contextsFrom, List.take_nil]
  | cons a rest ih =>
    intro i hist resp att ctx
    by_cases hexp : expiredAt env i = true
    · rw [smartLoop, if_pos hexp]
      obtain ⟨k, hk, hki⟩ : ∃ k, env.expiryStep = some k ∧ k ≤ i := by
        unfold expiredAt at hexp
        cases hes : env.expiryStep with
        | none => rw [hes] at hexp; simp at hexp
        | some k => rw [hes] at hexp; simp at hexp; exact ⟨k, rfl, hexp⟩
      have hz : stepsRun env i (a :: rest).length = 0 := by
        simp [stepsRun, hk]
        omega
      rw [hz]
      simp [contextsFrom]
    · rw [smartLoop, if_neg hexp]
      have hstep : stepsRun env i (a :: rest).length = stepsRun env (i + 1) rest.length + 1 := by
        unfold stepsRun
        cases hes : env.expiryStep with
        | none => simp
        | some k =>
          have hik : ¬k ≤ i := by
            unfold expiredAt at hexp
            rw [hes] at hexp
            simpa using hexp
          simp only [List.length_cons]
          omega
      cases hrun : env.agentRun i with
      | error e =>
        show (smartLoop env (i + 1) hist resp (att ++ [a.id])
          (ctx ++ [withMemory env.memoryContext (buildPreviousContext hist)]) rest).contexts = _
        rw [ih (i + 1) hist resp (att ++ [a.id])
          (ctx ++ [withMemory env.memoryContext (buildPreviousContext hist)])]
        rw [hstep, List.take_succ_cons]
        rw [contextsFrom]
        rw [hrun]
        simp [List.append_assoc]
      | ok content =>
        show (smartLoop env (i + 1) (hist ++ [mkEntry a content])
          (resp ++ [opinionResp a content]) (att ++ [a.id])
          (ctx ++ [withMemory env.memoryContext (buildPreviousContext hist)]) rest).contexts = _
        rw [ih (i + 1) (hist ++ [mkEntry a content]) (resp ++ [opinionResp a content])
          (att ++ [a.id]) (ctx ++ [withMemory env.memoryContext (buildPreviousContext hist)])]
        rw [hstep, List.take_succ_cons]
        rw [contextsFrom]
        rw [hrun]
        simp [List.append_assoc]

end Meeting

/-- C9: in every sequential smart-mode deliberation, the
previous-discussion context string handed to the k-th attempted agent
contains, verbatim and in speaking order, the content of every successful
Utterance of the selected agents before it (skipped agents contribute
nothing). -/
theorem C9_previous_context_verbatim (env : Meeting.SmartEnv) (j : Nat) (c : String)
    (h : (Meeting.runSmartMeeting env).contextsGiven.get? j = some c) :
    Meeting.containsInOrder c
      (Meeting.succContents env 0 ((Meeting.smartSelected env).take j)) := by
  unfold Meeting.runSmartMeeting at h
  split_ifs at h with h1 h2
  · simp at h
  · simp at h
  · split at h
    · simp at h
    · split at h
      · simp at h
      · simp at h
      · rename_i dsel hd
        dsimp only at h
        have key : ∀ c', ((Meeting.smartLoop env 0 [] [Meeting.moderatorOpening dsel] [] []
            (Meeting.filterAgentsOrdered env.allAgents dsel.selected)).contexts).get? j =
              some c' →
            Meeting.containsInOrder c'
              (Meeting.succContents env 0 ((Meeting.smartSelected env).take j)) := by
          intro c' hc
          rw [Meeting.smartLoop_contexts, List.nil_append] at hc
          have hlt : j < (Meeting.contextsFrom env 0 []
              ((Meeting.filterAgentsOrdered env.allAgents dsel.selected).take
                (Meeting.stepsRun env 0
                  (Meeting.filterAgentsOrdered env.allAgents dsel.selected).length))).length := by
            rcases List.get?_eq_some.mp hc with ⟨hl, _⟩
            exact hl
          rw [Meeting.contextsFrom_length, List.length_take] at hlt
          have hcont := Meeting.contextsFrom_get env _ 0 [] j c' hc
          rw [List.take_take] at hcont
          have hmin : min j (Meeting.stepsRun env 0
              (Meeting.filterAgentsOrdered env.allAgents dsel.selected).length) = j := by
            omega
          rw [hmin] at hcont
          have hsel : Meeting.smartSelected env =
              Meeting.filterAgentsOrdered env.allAgents dsel.selected := by
            simp [Meeting.smartSelected, hd]
          rw [hsel]
          simpa using hcont
        split_ifs at h with h5 h6
        · simp at h
        · exact key c h
        · split at h
          · exact key c h
          · split_ifs at h with h7
            · exact key c h
            · exact key c h

namespace Meeting

/-- The context string the third agent of `c6env` receives. -/
def c9ctx : String := "【前面专家的发言】\n- 张三（技术分析师）：观点一\n\n"

end Meeting

/-- Witness for C9: in the scenario-B run, the context handed to the third
selected agent contains the single successful earlier opinion verbatim. -/
theorem C9_previous_context_verbatim_witness :
    (Meeting.runSmartMeeting Meeting.c6env).contextsGiven.get? 2 = some Meeting.c9ctx ∧
    Meeting.containsInOrder Meeting.c9ctx ["观点一"] := by
  constructor
  · decide
  · have h := C9_previous_context_verbatim Meeting.c6env 2 Meeting.c9ctx (by decide)
    have he : Meeting.succContents Meeting.c6env 0
        ((Meeting.smartSelected Meeting.c6env).take 2) = ["观点一"] := by decide
    rwa [he] at h
